import Mathlib

/-!
Verification of the WhatsApp customer-messaging tool (`src/app.py`) against
its specification.  The Python source is shallowly embedded: strings are
`List Char`, dataframes are a column list plus row lists, the dispatch loops
are folds producing an event trace, and the HTTP transport is an oracle
`Recipient → Bool` (or an outcome oracle for the concurrent broadcast).
-/

set_option autoImplicit false

namespace WhatsAppApp

/-! ### Phone normalization (`UltraMsgWhatsAppMessenger._format_phone`, app.py:21-38) -/

/-- A character is kept by the normalizer: `char.isdigit() or char == '+'`. -/
def keepPhoneChar (c : Char) : Bool := c.isDigit || c == '+'

/-- `''.join(char for char in phone_str if char.isdigit() or char == '+')`. -/
def filterPhone (s : List Char) : List Char := s.filter keepPhoneChar

/-- `if not clean_phone.startswith('+'): clean_phone = '+' + clean_phone`. -/
def ensurePlus (s : List Char) : List Char :=
  if s.head? = some '+' then s else '+' :: s

/-- `_format_phone`: keep digits and `'+'`, ensure a leading `'+'`, then strip
the leading `'+'` for the UltraMsg wire format (app.py:21-38). -/
def formatPhone (s : List Char) : List Char :=
  let clean := filterPhone s
  let plussed := ensurePlus clean
  if plussed.head? = some '+' then plussed.tail else plussed

/-- The phone cleaner used on dataframes (`clean_phone_numbers.format_phone`,
app.py:203-214): same filtering, ensures the leading `'+'`, does not strip it. -/
def cleanPhoneValue (s : List Char) : List Char := ensurePlus (filterPhone s)

theorem filterPhone_cons (c : Char) (s : List Char) :
    filterPhone (c :: s) = if keepPhoneChar c then c :: filterPhone s else filterPhone s := by
  simp [filterPhone, List.filter_cons]

theorem mem_filterPhone_isDigit {s : List Char} (hp : ∀ c ∈ s, c ≠ '+') :
    ∀ c ∈ filterPhone s, c.isDigit := by
  intro c hc
  rcases List.mem_filter.mp hc with ⟨hmem, hkeep⟩
  rcases Bool.or_eq_true_iff.mp hkeep with h | h
  · exact h
  · exact absurd (by simpa using h) (hp c hmem)

theorem filterPhone_all_digits {s : List Char} (h : ∀ c ∈ s, c.isDigit) :
    filterPhone s = s :=
  List.filter_eq_self.mpr fun c hc => by
    simp [keepPhoneChar, h c hc]

/-- `formatPhone` fixes every all-digit list. -/
theorem formatPhone_all_digits {s : List Char} (h : ∀ c ∈ s, c.isDigit) :
    formatPhone s = s := by
  cases s with
  | nil => rfl
  | cons c cs =>
    have hc : c.isDigit := h c (List.mem_cons_self c cs)
    have hcne : c ≠ '+' := by
      intro he; rw [he] at hc; exact absurd hc (by decide)
    have hfix : filterPhone (c :: cs) = c :: cs := filterPhone_all_digits h
    have hcond : ¬ ((c :: cs).head? = some '+') := by simp [hcne]
    simp only [formatPhone, hfix, ensurePlus, if_neg hcond]
    simp

/-- When everything the filter kept is a digit, `formatPhone` returns exactly
the kept characters. -/
theorem formatPhone_eq_filterPhone_of_digits {s : List Char}
    (h : ∀ c ∈ filterPhone s, c.isDigit) : formatPhone s = filterPhone s := by
  cases hcl : filterPhone s with
  | nil => simp [formatPhone, hcl, ensurePlus]
  | cons d ds =>
    have hd : d.isDigit := h d (by rw [hcl]; exact List.mem_cons_self d ds)
    have hdne : ¬ (d = '+') := fun he => by
      rw [he] at hd; exact absurd hd (by decide)
    simp [formatPhone, hcl, ensurePlus, hdne]

theorem formatPhone_eq_nil_iff_filter (s : List Char) :
    formatPhone s = [] ↔ filterPhone s = [] ∨ filterPhone s = ['+'] := by
  cases hcl : filterPhone s with
  | nil => simp [formatPhone, hcl, ensurePlus]
  | cons d ds =>
    by_cases hd : d = '+'
    · subst hd
      simp [formatPhone, hcl, ensurePlus]
    · simp [formatPhone, hcl, ensurePlus, hd]

theorem filterPhone_trivial_iff (s : List Char) :
    (filterPhone s = [] ∨ filterPhone s = ['+'])
      ↔ (∀ c ∈ s, ¬ c.isDigit) ∧ s.count '+' ≤ 1 := by
  induction s with
  | nil => simp [filterPhone]
  | cons c cs ih =>
    by_cases hd : c.isDigit
    · have hkeep : keepPhoneChar c = true := by simp [keepPhoneChar, hd]
      have hcne : c ≠ '+' := fun he => by
        rw [he] at hd; exact absurd hd (by decide)
      rw [filterPhone_cons, if_pos hkeep]
      apply iff_of_false
      · rintro (h | h)
        · exact List.cons_ne_nil _ _ h
        · exact hcne (List.cons_eq_cons.mp h).1
      · rintro ⟨hall, -⟩
        exact hall c (List.mem_cons_self c cs) hd
    · by_cases hp : c = '+'
      · subst hp
        have hkeep : keepPhoneChar '+' = true := by decide
        rw [filterPhone_cons, if_pos hkeep]
        have hnil : filterPhone cs = [] ↔ (∀ c ∈ cs, ¬ c.isDigit) ∧ '+' ∉ cs := by
          rw [filterPhone, List.filter_eq_nil_iff]
          constructor
          · intro h
            refine ⟨fun a ha had => ?_, fun hmem => ?_⟩
            · exact (by simpa [keepPhoneChar, had] using h a ha)
            · exact (by simpa [keepPhoneChar] using h '+' hmem)
          · rintro ⟨hnd, hnp⟩ a ha
            have hane : a ≠ '+' := fun he => hnp (he ▸ ha)
            simp [keepPhoneChar, hnd a ha, hane]
        constructor
        · rintro (h | h)
          · exact absurd h (List.cons_ne_nil _ _)
          · have hcs : filterPhone cs = [] := (List.cons_eq_cons.mp h).2
            rcases hnil.mp hcs with ⟨hnd, hnp⟩
            refine ⟨fun a ha => ?_, ?_⟩
            · rcases List.mem_cons.mp ha with he | hmem
              · rw [he]; decide
              · exact hnd a hmem
            · have : cs.count '+' = 0 := List.count_eq_zero.mpr hnp
              simp [List.count_cons, this]
        · rintro ⟨hall, hcount⟩
          right
          have hc0 : cs.count '+' = 0 := by
            have := hcount
            simp [List.count_cons] at this
            omega
          have hcs : filterPhone cs = [] :=
            hnil.mpr ⟨fun a ha => hall a (List.mem_cons_of_mem _ ha),
              List.count_eq_zero.mp hc0⟩
          rw [hcs]
      · have hkeep : keepPhoneChar c = false := by
          simp [keepPhoneChar, hd, hp]
        rw [filterPhone_cons, if_neg (by simp [hkeep])]
        rw [ih]
        constructor
        · rintro ⟨hall, hcount⟩
          refine ⟨fun a ha => ?_, ?_⟩
          · rcases List.mem_cons.mp ha with he | hmem
            · rw [he]; exact hd
            · exact hall a hmem
          · simpa [List.count_cons, hp] using hcount
        · rintro ⟨hall, hcount⟩
          refine ⟨fun a ha => hall a (List.mem_cons_of_mem _ ha), ?_⟩
          simpa [List.count_cons, hp] using hcount

/-- C4 counterexample: the input `"++1"` is non-empty and contains a digit,
yet `_format_phone` returns `"+1"`, which is not digits-only, and
re-normalizing `"+1"` gives `"1"`, so idempotence also fails. -/
theorem c4_counterexample :
    (('+' :: '+' :: '1' :: []) ≠ [] ∧ ∃ c ∈ ('+' :: '+' :: '1' :: []), c.isDigit)
    ∧ ¬ ((∀ c ∈ formatPhone ('+' :: '+' :: '1' :: []), c.isDigit)
        ∧ formatPhone (formatPhone ('+' :: '+' :: '1' :: []))
            = formatPhone ('+' :: '+' :: '1' :: [])) := by
  decide

/-- C4 (amended): for every non-empty digit-bearing input in which `'+'`
occurs at most as the very first character, `_format_phone` returns a string
of digits only (no `'+'`) and is idempotent on its output. -/
theorem c4_format_phone_digits_idempotent (s : List Char)
    (hplus : ∀ c ∈ s.drop 1, c ≠ '+')
    (hdigit : ∃ c ∈ s, c.isDigit) :
    (∀ c ∈ formatPhone s, c.isDigit)
    ∧ formatPhone (formatPhone s) = formatPhone s := by
  have hall : ∀ c ∈ formatPhone s, c.isDigit := by
    cases s with
    | nil => simp at hdigit
    | cons c cs =>
      have hplus' : ∀ x ∈ cs, x ≠ '+' := by simpa using hplus
      by_cases hc : c = '+'
      · subst hc
        have hform : formatPhone ('+' :: cs) = filterPhone cs := by
          simp [formatPhone, filterPhone_cons, ensurePlus,
            (by decide : keepPhoneChar '+' = true)]
        rw [hform]
        exact mem_filterPhone_isDigit hplus'
      · have hp : ∀ x ∈ c :: cs, x ≠ '+' := by
          intro x hx
          rcases List.mem_cons.mp hx with he | hmem
          · exact he ▸ hc
          · exact hplus' x hmem
        rw [formatPhone_eq_filterPhone_of_digits (mem_filterPhone_isDigit hp)]
        exact mem_filterPhone_isDigit hp
  exact ⟨hall, formatPhone_all_digits hall⟩

/-- C4 witness: the theorem instantiated at the concrete input `"+12"`. -/
theorem c4_format_phone_witness :
    (∀ c ∈ formatPhone ('+' :: '1' :: '2' :: []), c.isDigit)
    ∧ formatPhone (formatPhone ('+' :: '1' :: '2' :: []))
        = formatPhone ('+' :: '1' :: '2' :: []) :=
  c4_format_phone_digits_idempotent ('+' :: '1' :: '2' :: []) (by decide) (by decide)

/-- C5 counterexample: `"++"` is a digit-free input, yet `_format_phone`
returns the non-empty string `"+"` rather than any null/Invalid marker. -/
theorem c5_counterexample :
    (∀ c ∈ ('+' :: '+' :: []), ¬ c.isDigit)
    ∧ formatPhone ('+' :: '+' :: []) ≠ [] := by
  decide

/-- C5 (amended): `_format_phone` is total — it never returns a null marker
or raises — and its result is the empty string exactly when the input
contains no digits and at most one `'+'`. -/
theorem c5_format_phone_empty_iff (s : List Char) :
    formatPhone s = [] ↔ (∀ c ∈ s, ¬ c.isDigit) ∧ s.count '+' ≤ 1 := by
  rw [formatPhone_eq_nil_iff_filter, filterPhone_trivial_iff]

/-! ### Recipients and filtering (`apply_filters`, app.py:221-238) -/

/-- One row of the customer dataframe as consumed by the dispatch code.
Optional fields model missing columns / NaN cells; `phone` is the cleaned
string cell, with `""` standing for a missing/blank phone. -/
structure Recipient where
  name : Option String
  phone : String
  address : Option String
  last_purchase : Option Nat
  total_spent : Option Int
deriving DecidableEq

/-- The characters Python `re` treats specially (`re` module docs):
`.` `^` `$` `*` `+` `?` `\x7b` `\x7d` `[` `]` `\` `|` `(` `)`.  A pattern
free of all of them is matched by `re.search` as a plain literal. -/
def isRegexMeta (c : Char) : Bool :=
  c = '.' || c = '^' || c = '$' || c = '*' || c = '+' || c = '?' ||
  c = '\x7b' || c = '\x7d' || c = '[' || c = ']' || c = '\\' || c = '|' ||
  c = '(' || c = ')'

/-- One regex-atom match for the literal-and-dot fragment: `'.'` matches any
character except a newline, any other pattern character matches itself
case-insensitively (`re.IGNORECASE`). -/
def charMatch (p c : Char) : Bool :=
  if p = '.' then c ≠ '\n' else p.toLower = c.toLower

/-- Anchored match of the pattern at the current text position. -/
def matchHere : List Char → List Char → Bool
  | [], _ => true
  | _ :: _, [] => false
  | p :: ps, c :: cs => charMatch p c && matchHere ps cs

/-- Models pandas `Series.str.contains(pat, case=False, na=False)` with its
default `regex=True`, i.e. Python `re.search` with `IGNORECASE`, on the
fragment of patterns built from literal characters and the `'.'` wildcard.
On patterns containing the other `isRegexMeta` characters this model
diverges from `re.search` (it would treat them as literals), so the theorems
below invoke it only on metacharacter-free patterns — where `re.search` is
literal search and the model is exact — and on the single-`'.'` pattern of
the counterexample, where `re.search` matches any non-newline character
exactly as `charMatch` does. -/
def regexContains (pat : List Char) : List Char → Bool
  | [] => matchHere pat []
  | c :: cs => matchHere pat (c :: cs) || regexContains pat cs

/-- Case-insensitive literal substring containment — the spec's reading of
the address filter. -/
def ciSubstr (pat text : List Char) : Bool :=
  decide ((pat.map Char.toLower) <:+: (text.map Char.toLower))

/-- `filtered_df['address'].str.contains(address, case=False, na=False)`:
a missing address (NaN) never matches. -/
def matchesAddress (a : String) (r : Recipient) : Bool :=
  match r.address with
  | some s => regexContains a.data s.data
  | none => false

/-- `filtered_df['total_spent'] >= min_spent`; NaN compares false. -/
def matchesMinSpent (m : Int) (r : Recipient) : Bool :=
  match r.total_spent with
  | some v => m ≤ v
  | none => false

/-- `pd.to_datetime(filtered_df['last_purchase']) >= pd.to_datetime(after_date)`,
with dates mapped to ordinals. -/
def matchesAfterDate (d : Nat) (r : Recipient) : Bool :=
  match r.last_purchase with
  | some v => d ≤ v
  | none => false

/-- The `head(limit)` step of `apply_filters`: Python's
`if limit and limit > 0 and limit < len(filtered_df)` guard. -/
def applyLimit (limit : Option Nat) (l : List Recipient) : List Recipient :=
  match limit with
  | some k => if k ≠ 0 ∧ 0 < k ∧ k < l.length then l.take k else l
  | none => l

/-- `apply_filters` (app.py:221-238).  Python truthiness: an empty `address`
string and a zero `limit` behave exactly like absent filters. -/
def apply_filters (df : List Recipient) (address : Option String)
    (min_spent : Option Int) (after_date : Option Nat) (limit : Option Nat) :
    List Recipient :=
  let f1 := match address with
    | some a => if a ≠ "" then df.filter (matchesAddress a) else df
    | none => df
  let f2 := match min_spent with
    | some m => f1.filter (matchesMinSpent m)
    | none => f1
  let f3 := match after_date with
    | some d => f2.filter (matchesAfterDate d)
    | none => f2
  applyLimit limit f3

/-- C6: `apply_filters` with no filters is the identity, and with
`limit = k ≥ 1` it returns exactly the first `min(k, matchCount)` records
that pass the other filters, in original order. -/
theorem c6_apply_filters_identity_and_limit (df : List Recipient)
    (address : Option String) (min_spent : Option Int) (after_date : Option Nat) :
    apply_filters df none none none none = df
    ∧ ∀ k, 1 ≤ k →
        apply_filters df address min_spent after_date (some k)
          = (apply_filters df address min_spent after_date none).take k
        ∧ (apply_filters df address min_spent after_date (some k)).length
          = min k (apply_filters df address min_spent after_date none).length := by
  refine ⟨rfl, fun k hk => ?_⟩
  have hrw : apply_filters df address min_spent after_date (some k)
      = applyLimit (some k) (apply_filters df address min_spent after_date none) := rfl
  rw [hrw]
  set l := apply_filters df address min_spent after_date none with hl
  by_cases hlt : k < l.length
  · have hcond : k ≠ 0 ∧ 0 < k ∧ k < l.length := ⟨by omega, by omega, hlt⟩
    rw [applyLimit, if_pos hcond]
    exact ⟨rfl, by simp [List.length_take]⟩
  · have hle : l.length ≤ k := Nat.le_of_not_lt hlt
    have hcond : ¬ (k ≠ 0 ∧ 0 < k ∧ k < l.length) := by
      rintro ⟨-, -, h⟩; exact hlt h
    rw [applyLimit, if_neg hcond]
    refine ⟨(List.take_of_length_le hle).symm, ?_⟩
    simp [Nat.min_eq_right hle]

/-- C6 witness: the limit clause instantiated at a three-row table, `k = 2`. -/
theorem c6_apply_filters_witness :
    apply_filters
        [⟨some "A", "1", none, none, none⟩, ⟨some "B", "2", none, none, none⟩,
          ⟨some "C", "3", none, none, none⟩] none none none (some 2)
      = (apply_filters
          [⟨some "A", "1", none, none, none⟩, ⟨some "B", "2", none, none, none⟩,
            ⟨some "C", "3", none, none, none⟩] none none none none).take 2
    ∧ (apply_filters
        [⟨some "A", "1", none, none, none⟩, ⟨some "B", "2", none, none, none⟩,
          ⟨some "C", "3", none, none, none⟩] none none none (some 2)).length
      = min 2 (apply_filters
          [⟨some "A", "1", none, none, none⟩, ⟨some "B", "2", none, none, none⟩,
            ⟨some "C", "3", none, none, none⟩] none none none none).length :=
  (c6_apply_filters_identity_and_limit _ none none none).2 2 (by decide)

theorem matchHere_eq_prefixLower {pat : List Char} (hdot : '.' ∉ pat) :
    ∀ text : List Char,
      (matchHere pat text = true ↔ (pat.map Char.toLower) <+: (text.map Char.toLower)) := by
  induction pat with
  | nil => intro text; simp [matchHere]
  | cons p ps ih =>
    have hp : p ≠ '.' := fun he => hdot (he ▸ List.mem_cons_self p ps)
    have hps : '.' ∉ ps := fun hm => hdot (List.mem_cons_of_mem p hm)
    intro text
    cases text with
    | nil => simp [matchHere]
    | cons c cs =>
      simp only [matchHere, List.map_cons, List.cons_prefix_cons,
        Bool.and_eq_true, charMatch, if_neg hp, decide_eq_true_eq]
      exact and_congr Iff.rfl (ih hps cs)

theorem regexContains_eq_infixLower {pat : List Char} (hdot : '.' ∉ pat) :
    ∀ text : List Char,
      (regexContains pat text = true
        ↔ (pat.map Char.toLower) <:+: (text.map Char.toLower)) := by
  intro text
  induction text with
  | nil =>
    rw [regexContains, matchHere_eq_prefixLower hdot]
    simp
  | cons c cs ih =>
    rw [regexContains, Bool.or_eq_true, matchHere_eq_prefixLower hdot, ih,
      List.map_cons, List.infix_cons_iff]

theorem regexContains_eq_ciSubstr {pat : List Char} (hdot : '.' ∉ pat)
    (text : List Char) : regexContains pat text = ciSubstr pat text := by
  by_cases h : (pat.map Char.toLower) <:+: (text.map Char.toLower)
  · rw [(regexContains_eq_infixLower hdot text).mpr h, ciSubstr, decide_eq_true h]
  · rw [ciSubstr, decide_eq_false h]
    exact Bool.eq_false_iff.mpr fun hc => h ((regexContains_eq_infixLower hdot text).mp hc)

/-- C8 counterexample: with the filter string `"."` the address filter keeps
the record whose address is `"abc"`, although `"abc"` does not contain `"."`
as a (case-insensitive) substring — pandas `str.contains` is a regex search,
not a literal substring test, so the claim fails for arbitrary filter
strings. -/
theorem c8_counterexample :
    apply_filters [⟨some "A", "1", some "abc", none, none⟩] (some ".") none none none
      = [⟨some "A", "1", some "abc", none, none⟩]
    ∧ ciSubstr ('.' :: []) ('a' :: 'b' :: 'c' :: []) = false := by
  constructor
  · rfl
  · decide

/-- C8 (amended): for every non-empty filter string containing none of the
Python regex metacharacters, the address filter keeps exactly the records
whose address contains the string as a case-insensitive substring (missing
addresses never match).  On such strings `re.search` is literal search, so
the embedded matcher is exact. -/
theorem c8_address_filter_substring (l : List Recipient) (s : String)
    (hne : s ≠ "") (hmeta : ∀ c ∈ s.data, isRegexMeta c = false) :
    apply_filters l (some s) none none none
      = l.filter (fun r =>
          match r.address with
          | some a => ciSubstr s.data a.data
          | none => false) := by
  have hdot : '.' ∉ s.data := fun hm => by
    have h := hmeta '.' hm
    rw [isRegexMeta] at h
    simp at h
  have hbase : apply_filters l (some s) none none none
      = l.filter (matchesAddress s) := by
    rw [apply_filters]
    simp only [if_pos hne]
    rfl
  rw [hbase]
  apply List.filter_congr
  intro r _
  cases ha : r.address with
  | none => simp [matchesAddress, ha]
  | some a =>
    simp only [matchesAddress, ha]
    exact regexContains_eq_ciSubstr hdot a.data

/-- C8 witness: the amended filter theorem instantiated at a two-row table
and the filter string `"york"`. -/
theorem c8_address_filter_witness :
    apply_filters
        [⟨some "A", "1", some "New York", none, none⟩,
          ⟨some "B", "2", none, none, none⟩] (some "york") none none none
      = List.filter (fun r =>
          match r.address with
          | some a => ciSubstr "york".data a.data
          | none => false)
        [⟨some "A", "1", some "New York", none, none⟩,
          ⟨some "B", "2", none, none, none⟩] :=
  c8_address_filter_substring
    [⟨some "A", "1", some "New York", none, none⟩, ⟨some "B", "2", none, none, none⟩]
    "york" (by decide) (by decide)

/-! ### Message templating (`text_message.replace('\x7bname\x7d', name)`, app.py:471-472) -/

/-- Python `str.replace` scanning left to right, replacing every
non-overlapping occurrence; the fuel argument only bounds the recursion and
is irrelevant as long as it dominates the text length. -/
def strReplaceAux (pat rep : List Char) : Nat → List Char → List Char
  | 0, s => s
  | _ + 1, [] => []
  | fuel + 1, c :: cs =>
    if pat ≠ [] ∧ pat <+: (c :: cs) then
      rep ++ strReplaceAux pat rep fuel ((c :: cs).drop pat.length)
    else
      c :: strReplaceAux pat rep fuel cs

/-- Python `text.replace(pat, rep)` for a non-empty pattern (the program only
ever replaces the fixed non-empty token below). -/
def strReplace (pat rep s : List Char) : List Char :=
  strReplaceAux pat rep s.length s

theorem strReplaceAux_fuel_irrel (pat rep : List Char) :
    ∀ fuel₁ fuel₂ s, s.length ≤ fuel₁ → s.length ≤ fuel₂ →
      strReplaceAux pat rep fuel₁ s = strReplaceAux pat rep fuel₂ s := by
  intro fuel₁
  induction fuel₁ with
  | zero =>
    intro fuel₂ s h₁ h₂
    have hs : s = [] := List.length_eq_zero.mp (Nat.le_zero.mp h₁)
    subst hs
    cases fuel₂ <;> rfl
  | succ f ih =>
    intro fuel₂ s h₁ h₂
    cases s with
    | nil => cases fuel₂ <;> rfl
    | cons c cs =>
      cases fuel₂ with
      | zero => simp at h₂
      | succ g =>
        simp only [strReplaceAux]
        by_cases hcond : pat ≠ [] ∧ pat <+: (c :: cs)
        · rw [if_pos hcond, if_pos hcond]
          have hplen : 0 < pat.length := List.length_pos.mpr hcond.1
          have hdrop : ((c :: cs).drop pat.length).length ≤ f := by
            simp only [List.length_drop, List.length_cons]
            simp only [List.length_cons] at h₁
            omega
          have hdrop' : ((c :: cs).drop pat.length).length ≤ g := by
            simp only [List.length_drop, List.length_cons]
            simp only [List.length_cons] at h₂
            omega
          rw [ih g _ hdrop hdrop']
        · rw [if_neg hcond, if_neg hcond]
          have hcs : cs.length ≤ f := by
            simp only [List.length_cons] at h₁; omega
          have hcs' : cs.length ≤ g := by
            simp only [List.length_cons] at h₂; omega
          rw [ih g cs hcs hcs']

theorem strReplace_nil (pat rep : List Char) : strReplace pat rep [] = [] := rfl

/-- One scanning step of `str.replace`. -/
theorem strReplace_cons (pat rep : List Char) (c : Char) (cs : List Char) :
    strReplace pat rep (c :: cs)
      = if pat ≠ [] ∧ pat <+: (c :: cs) then
          rep ++ strReplace pat rep ((c :: cs).drop pat.length)
        else
          c :: strReplace pat rep cs := by
  rw [strReplace, List.length_cons, strReplaceAux]
  by_cases hcond : pat ≠ [] ∧ pat <+: (c :: cs)
  · rw [if_pos hcond, if_pos hcond, strReplace]
    have hplen : 0 < pat.length := List.length_pos.mpr hcond.1
    exact congrArg (rep ++ ·) (strReplaceAux_fuel_irrel pat rep _ _ _
      (by simp only [List.length_drop, List.length_cons]; omega) (Nat.le_refl _))
  · rw [if_neg hcond, if_neg hcond, strReplace]

/-- The fixed template token recognized by the program. -/
def nameToken : List Char := "{name}".data

/-- `row.get('name', 'Customer')` (app.py:471). -/
def displayName (r : Recipient) : String := r.name.getD "Customer"

/-- `text_message.replace('\x7bname\x7d', name)` (app.py:472). -/
def render (template : List Char) (r : Recipient) : List Char :=
  strReplace nameToken (displayName r).data template

theorem strReplace_of_no_occurrence (pat rep : List Char) :
    ∀ t : List Char, ¬ (pat <:+: t) → strReplace pat rep t = t := by
  intro t
  induction t with
  | nil => intro _; rfl
  | cons c cs ih =>
    intro h
    rw [strReplace_cons, if_neg, ih]
    · intro hc; exact h (List.infix_cons_iff.mpr (Or.inr hc))
    · rintro ⟨-, hpre⟩; exact h (List.infix_cons_iff.mpr (Or.inl hpre))

theorem strReplace_token_append (rep b : List Char) :
    ∀ a : List Char, '{' ∉ a →
      strReplace nameToken rep (a ++ nameToken ++ b)
        = a ++ rep ++ strReplace nameToken rep b := by
  intro a
  induction a with
  | nil =>
    intro _
    have hcat : nameToken ++ b = '{' :: ("name\x7d".data ++ b) := rfl
    have hpre : nameToken <+: '{' :: ("name\x7d".data ++ b) :=
      hcat ▸ List.prefix_append nameToken b
    have hdrop : ('{' :: ("name\x7d".data ++ b)).drop nameToken.length = b := by
      rw [← hcat]; exact List.drop_left _ _
    rw [List.nil_append, hcat, strReplace_cons,
      if_pos ⟨(by decide : nameToken ≠ []), hpre⟩, hdrop]
    simp
  | cons x xs ih =>
    intro hx
    have hxne : x ≠ '{' := fun he => hx (he ▸ List.mem_cons_self x xs)
    have hxs : '{' ∉ xs := fun hm => hx (List.mem_cons_of_mem x hm)
    have hcons : (x :: xs) ++ nameToken ++ b = x :: (xs ++ nameToken ++ b) := by
      simp
    rw [hcons, strReplace_cons, if_neg, ih hxs]
    · simp
    · rintro ⟨-, hpre⟩
      rw [show nameToken = '{' :: "name\x7d".data from rfl] at hpre
      exact hxne (List.cons_prefix_cons.mp hpre).1.symm

/-- C7: `render` replaces every literal occurrence of the token with
the recipient's name (`"Customer"` when absent) and leaves all other text,
including unmatched braces, verbatim: the concrete example holds, a
token-free template is returned unchanged, and any text before an
occurrence that cannot start the token is copied as-is while the occurrence
itself is substituted. -/
theorem c7_render_spec :
    render "Hello {name}!".data ⟨some "Ann", "1", none, none, none⟩ = "Hello Ann!".data
    ∧ (∀ (t : List Char) (r : Recipient), r.name = none →
        render t r = strReplace nameToken "Customer".data t)
    ∧ (∀ (t : List Char) (r : Recipient), ¬ (nameToken <:+: t) → render t r = t)
    ∧ (∀ (a b : List Char) (r : Recipient), '{' ∉ a →
        render (a ++ nameToken ++ b) r = a ++ (displayName r).data ++ render b r) := by
  refine ⟨by decide, fun t r hr => ?_, fun t r h => ?_, fun a b r ha => ?_⟩
  · rw [render, displayName, hr]; rfl
  · exact strReplace_of_no_occurrence nameToken _ t h
  · exact strReplace_token_append _ b a ha

/-- C7 witness: the token-free clause applied to a concrete template with an
unmatched brace, and the substitution clause applied to a concrete split. -/
theorem c7_render_witness :
    render "No token \x7b here".data ⟨none, "1", none, none, none⟩ = "No token \x7b here".data :=
  c7_render_spec.2.2.1 "No token \x7b here".data ⟨none, "1", none, none, none⟩ (by decide)

/-! ### Dispatch engine (live-mode loops, app.py:468-508 and 678-720) -/

/-- One observable event of a live dispatch run. -/
inductive Ev
  | sent (r : Recipient)
  | sendError (r : Recipient)
  | skip (r : Recipient)
  | sleep
deriving DecidableEq

/-- The per-recipient body of the live loops (app.py:468-499 and 685-710):
a blank phone is skipped before any request and counted as an error
(`if not phone: error_count += 1; continue`); otherwise the request is made
and either succeeds (`sent_count += 1`) or raises, and the `try/except`
inside the loop catches the exception and counts an error. -/
def stepEv (transport : Recipient → Bool) (r : Recipient) : Ev :=
  if r.phone = "" then .skip r
  else if transport r then .sent r else .sendError r

/-- The live text-message loop (app.py:468-508): recipients in order, one
event each. -/
def sendTextLoop (transport : Recipient → Bool) : List Recipient → List Ev
  | [] => []
  | r :: rs => stepEv transport r :: sendTextLoop transport rs

/-- `for i in range(0, total_recipients, batch_size):
batches.append(recipients.iloc[i:i+batch_size])` (app.py:648-651).
`range(0, n, b)` has `(n + b - 1) / b` elements for `b ≥ 1`; `b = 0` raises
in Python and is excluded by the UI (`min_value=1`). -/
def makeBatches (batch_size : Nat) (rs : List Recipient) : List (List Recipient) :=
  (List.range' 0 ((rs.length + batch_size - 1) / batch_size) batch_size).map
    (fun i => (rs.drop i).take batch_size)

/-- The live broadcast loop over batches (app.py:681-718): per-recipient
events batch by batch, and `if batch_idx < len(batches) - 1:
time.sleep(delay_between_batches)` — a sleep after every batch except the
last. -/
def runTrace (transport : Recipient → Bool) : List (List Recipient) → List Ev
  | [] => []
  | batch :: rest =>
    batch.map (stepEv transport)
      ++ (if rest.isEmpty then [] else [Ev.sleep])
      ++ runTrace transport rest

/-- The full live broadcast run (app.py:678-720). -/
def broadcastTrace (transport : Recipient → Bool) (batch_size : Nat)
    (rs : List Recipient) : List Ev :=
  runTrace transport (makeBatches batch_size rs)

def isSent : Ev → Bool
  | .sent _ => true
  | _ => false

def isErrorEv : Ev → Bool
  | .sendError _ => true
  | .skip _ => true
  | _ => false

def isSleepEv : Ev → Bool
  | .sleep => true
  | _ => false

def reqOf : Ev → Option Recipient
  | .sent r => some r
  | .sendError r => some r
  | _ => none

def errNameOf : Ev → Option String
  | .sendError r => some (r.name.getD "")
  | _ => none

/-- `sent_count` at the end of a run. -/
def sentCount (evs : List Ev) : Nat := (evs.filter isSent).length

/-- `error_count` at the end of a run: blank-phone skips plus caught send
failures. -/
def errorCount (evs : List Ev) : Nat := (evs.filter isErrorEv).length

/-- Number of inter-batch pauses taken. -/
def sleepCount (evs : List Ev) : Nat := (evs.filter isSleepEv).length

/-- The transport requests issued during a run: every attempted send posts
one request (successful or not); skipped recipients post none. -/
def requests (evs : List Ev) : List Recipient := evs.filterMap reqOf

/-- The provider-failure log: one `Error sending to <name>` line per caught
exception, keyed by `row.get('name', '')` (app.py:498 and 710). -/
def errLog (evs : List Ev) : List String := evs.filterMap errNameOf

theorem sendTextLoop_eq_map (t : Recipient → Bool) :
    ∀ rs : List Recipient, sendTextLoop t rs = rs.map (stepEv t) := by
  intro rs
  induction rs with
  | nil => rfl
  | cons r rs ih => simp [sendTextLoop, ih]

theorem isSleepEv_stepEv (t : Recipient → Bool) (r : Recipient) :
    isSleepEv (stepEv t r) = false := by
  rw [stepEv]
  split
  · rfl
  · split <;> rfl

theorem sentCount_append (a b : List Ev) :
    sentCount (a ++ b) = sentCount a + sentCount b := by
  simp [sentCount, List.filter_append]

theorem errorCount_append (a b : List Ev) :
    errorCount (a ++ b) = errorCount a + errorCount b := by
  simp [errorCount, List.filter_append]

theorem sleepCount_append (a b : List Ev) :
    sleepCount (a ++ b) = sleepCount a + sleepCount b := by
  simp [sleepCount, List.filter_append]

theorem requests_append (a b : List Ev) :
    requests (a ++ b) = requests a ++ requests b := by
  simp [requests, List.filterMap_append]

theorem errLog_append (a b : List Ev) :
    errLog (a ++ b) = errLog a ++ errLog b := by
  simp [errLog, List.filterMap_append]

/-- Case analysis on the per-recipient step. -/
theorem stepEv_cases (t : Recipient → Bool) (r : Recipient) :
    (r.phone = "" ∧ stepEv t r = .skip r)
    ∨ (¬ r.phone = "" ∧ t r = true ∧ stepEv t r = .sent r)
    ∨ (¬ r.phone = "" ∧ t r = false ∧ stepEv t r = .sendError r) := by
  by_cases hp : r.phone = ""
  · exact Or.inl ⟨hp, by rw [stepEv, if_pos hp]⟩
  · by_cases ht : t r
    · exact Or.inr (Or.inl ⟨hp, ht, by rw [stepEv, if_neg hp, if_pos ht]⟩)
    · exact Or.inr (Or.inr ⟨hp, by simpa using ht,
        by rw [stepEv, if_neg hp, if_neg (by simpa using ht)]⟩)

/-- Aggregate counters of a straight-line segment: one outcome per
recipient, at least one error per blank phone, and exactly the non-blank
recipients appear as transport requests. -/
theorem counts_map (t : Recipient → Bool) :
    ∀ rs : List Recipient,
      sentCount (rs.map (stepEv t)) + errorCount (rs.map (stepEv t)) = rs.length
      ∧ (rs.filter fun r => decide (r.phone = "")).length
          ≤ errorCount (rs.map (stepEv t))
      ∧ requests (rs.map (stepEv t)) = rs.filter fun r => !decide (r.phone = "") := by
  intro rs
  induction rs with
  | nil => exact ⟨rfl, Nat.le_refl 0, rfl⟩
  | cons r rs ih =>
    obtain ⟨ih1, ih2, ih3⟩ := ih
    rcases stepEv_cases t r with ⟨hp, hstep⟩ | ⟨hp, ht, hstep⟩ | ⟨hp, ht, hstep⟩
    · refine ⟨?_, ?_, ?_⟩
      · have e1 : sentCount ((r :: rs).map (stepEv t))
            = sentCount (rs.map (stepEv t)) := by
          simp [List.map_cons, hstep, sentCount, List.filter_cons, isSent]
        have e2 : errorCount ((r :: rs).map (stepEv t))
            = errorCount (rs.map (stepEv t)) + 1 := by
          simp [List.map_cons, hstep, errorCount, List.filter_cons, isErrorEv]
        rw [e1, e2, List.length_cons]; omega
      · have e2 : errorCount ((r :: rs).map (stepEv t))
            = errorCount (rs.map (stepEv t)) + 1 := by
          simp [List.map_cons, hstep, errorCount, List.filter_cons, isErrorEv]
        have e3 : ((r :: rs).filter fun r => decide (r.phone = "")).length
            = (rs.filter fun r => decide (r.phone = "")).length + 1 := by
          simp [List.filter_cons, hp]
        rw [e2, e3]; omega
      · have e4 : requests ((r :: rs).map (stepEv t))
            = requests (rs.map (stepEv t)) := by
          simp [List.map_cons, hstep, requests, List.filterMap_cons, reqOf]
        have e5 : ((r :: rs).filter fun r => !decide (r.phone = ""))
            = rs.filter fun r => !decide (r.phone = "") := by
          simp [List.filter_cons, hp]
        rw [e4, e5]; exact ih3
    · refine ⟨?_, ?_, ?_⟩
      · have e1 : sentCount ((r :: rs).map (stepEv t))
            = sentCount (rs.map (stepEv t)) + 1 := by
          simp [List.map_cons, hstep, sentCount, List.filter_cons, isSent]
        have e2 : errorCount ((r :: rs).map (stepEv t))
            = errorCount (rs.map (stepEv t)) := by
          simp [List.map_cons, hstep, errorCount, List.filter_cons, isErrorEv]
        rw [e1, e2, List.length_cons]; omega
      · have e2 : errorCount ((r :: rs).map (stepEv t))
            = errorCount (rs.map (stepEv t)) := by
          simp [List.map_cons, hstep, errorCount, List.filter_cons, isErrorEv]
        have e3 : ((r :: rs).filter fun r => decide (r.phone = "")).length
            = (rs.filter fun r => decide (r.phone = "")).length := by
          simp [List.filter_cons, hp]
        rw [e2, e3]; exact ih2
      · have e4 : requests ((r :: rs).map (stepEv t))
            = r :: requests (rs.map (stepEv t)) := by
          simp [List.map_cons, hstep, requests, List.filterMap_cons, reqOf]
        have e5 : ((r :: rs).filter fun r => !decide (r.phone = ""))
            = r :: rs.filter fun r => !decide (r.phone = "") := by
          simp [List.filter_cons, hp]
        rw [e4, e5, ih3]
    · refine ⟨?_, ?_, ?_⟩
      · have e1 : sentCount ((r :: rs).map (stepEv t))
            = sentCount (rs.map (stepEv t)) := by
          simp [List.map_cons, hstep, sentCount, List.filter_cons, isSent]
        have e2 : errorCount ((r :: rs).map (stepEv t))
            = errorCount (rs.map (stepEv t)) + 1 := by
          simp [List.map_cons, hstep, errorCount, List.filter_cons, isErrorEv]
        rw [e1, e2, List.length_cons]; omega
      · have e2 : errorCount ((r :: rs).map (stepEv t))
            = errorCount (rs.map (stepEv t)) + 1 := by
          simp [List.map_cons, hstep, errorCount, List.filter_cons, isErrorEv]
        have e3 : ((r :: rs).filter fun r => decide (r.phone = "")).length
            = (rs.filter fun r => decide (r.phone = "")).length := by
          simp [List.filter_cons, hp]
        rw [e2, e3]; omega
      · have e4 : requests ((r :: rs).map (stepEv t))
            = r :: requests (rs.map (stepEv t)) := by
          simp [List.map_cons, hstep, requests, List.filterMap_cons, reqOf]
        have e5 : ((r :: rs).filter fun r => !decide (r.phone = ""))
            = r :: rs.filter fun r => !decide (r.phone = "") := by
          simp [List.filter_cons, hp]
        rw [e4, e5, ih3]

/-- The optional inter-batch sleep contributes nothing to any counter. -/
theorem sep_counts (c : Bool) :
    sentCount (if c then [] else [Ev.sleep]) = 0
    ∧ errorCount (if c then [] else [Ev.sleep]) = 0
    ∧ requests (if c then [] else [Ev.sleep]) = []
    ∧ errLog (if c then [] else [Ev.sleep]) = [] := by
  cases c <;>
    exact ⟨rfl, rfl, rfl, rfl⟩

/-- Sleeps do not change any counter, so a batched trace counts exactly like
the concatenation of its batches. -/
theorem runTrace_counts (t : Recipient → Bool) :
    ∀ batches : List (List Recipient),
      sentCount (runTrace t batches) = sentCount (batches.flatten.map (stepEv t))
      ∧ errorCount (runTrace t batches) = errorCount (batches.flatten.map (stepEv t))
      ∧ requests (runTrace t batches) = requests (batches.flatten.map (stepEv t))
      ∧ errLog (runTrace t batches) = errLog (batches.flatten.map (stepEv t)) := by
  intro batches
  induction batches with
  | nil => exact ⟨rfl, rfl, rfl, rfl⟩
  | cons batch rest ih =>
    obtain ⟨ih1, ih2, ih3, ih4⟩ := ih
    obtain ⟨s1, s2, s3, s4⟩ := sep_counts rest.isEmpty
    have hflat : (batch :: rest).flatten.map (stepEv t)
        = batch.map (stepEv t) ++ rest.flatten.map (stepEv t) := by
      rw [List.flatten_cons, List.map_append]
    refine ⟨?_, ?_, ?_, ?_⟩
    · rw [runTrace, sentCount_append, sentCount_append, s1, hflat,
        sentCount_append, ih1]
      omega
    · rw [runTrace, errorCount_append, errorCount_append, s2, hflat,
        errorCount_append, ih2]
      omega
    · rw [runTrace, requests_append, requests_append, s3, hflat,
        requests_append, ih3, List.append_nil]
    · rw [runTrace, errLog_append, errLog_append, s4, hflat,
        errLog_append, ih4, List.append_nil]

theorem makeBatches_nil (b : Nat) : makeBatches b [] = [] := by
  have h0 : (b - 1) / b = 0 := by
    cases b with
    | zero => rfl
    | succ k => exact Nat.div_eq_of_lt (by omega)
  simp [makeBatches, h0]

theorem slices_shift (b : Nat) :
    ∀ (k s : Nat) (rs : List Recipient),
      (List.range' s k b).map (fun i => (rs.drop i).take b)
        = (List.range' 0 k b).map (fun i => ((rs.drop s).drop i).take b) := by
  intro k
  induction k with
  | zero => intro s rs; rfl
  | succ k ih =>
    intro s rs
    rw [List.range'_succ, List.range'_succ, List.map_cons, List.map_cons]
    refine congrArg₂ (· :: ·) (by rw [List.drop_zero]) ?_
    rw [ih (s + b) rs, ih (0 + b) (rs.drop s)]
    apply List.map_congr_left
    intro i _
    have hdd : (rs.drop s).drop (0 + b) = rs.drop (s + b) := by
      rw [List.drop_drop]
      exact congrArg (rs.drop ·) (by omega)
    rw [hdd]

theorem makeBatches_cons (b : Nat) (hb : 1 ≤ b) (rs : List Recipient)
    (h : rs ≠ []) :
    makeBatches b rs = rs.take b :: makeBatches b (rs.drop b) := by
  have hn : 1 ≤ rs.length := List.length_pos.mpr h
  have hcount : (rs.length + b - 1) / b
      = ((rs.drop b).length + b - 1) / b + 1 := by
    rw [List.length_drop]
    by_cases hbn : b ≤ rs.length
    · have he : rs.length + b - 1 = (rs.length - b + b - 1) + b := by omega
      rw [he, Nat.add_div_right _ (by omega)]
    · have h1 : rs.length - b = 0 := by omega
      have hL : (rs.length + b - 1) / b = 1 :=
        Nat.div_eq_of_lt_le (by omega) (by omega)
      have hR : (0 + b - 1) / b = 0 := Nat.div_eq_of_lt (by omega)
      rw [h1, hL, hR]
  rw [makeBatches, hcount, List.range'_succ, List.map_cons, List.drop_zero,
    Nat.zero_add]
  exact congrArg (rs.take b :: ·) (by rw [slices_shift b _ b rs, makeBatches])

/-- The batches partition the selection: concatenating them in order gives
back the original list. -/
theorem makeBatches_flatten (b : Nat) (hb : 1 ≤ b) (rs : List Recipient) :
    (makeBatches b rs).flatten = rs := by
  generalize hn : rs.length = n
  induction n using Nat.strong_induction_on generalizing rs with
  | _ n ih =>
    by_cases h : rs = []
    · subst h; rw [makeBatches_nil]; rfl
    · have hlen : (rs.drop b).length < n := by
        rw [← hn, List.length_drop]
        have : 1 ≤ rs.length := List.length_pos.mpr h
        omega
      rw [makeBatches_cons b hb rs h, List.flatten_cons,
        ih _ hlen (rs.drop b) rfl, List.take_append_drop]

theorem makeBatches_length (b : Nat) (rs : List Recipient) :
    (makeBatches b rs).length = (rs.length + b - 1) / b := by
  simp [makeBatches]

/-- Every batch except possibly the last is full. -/
theorem makeBatches_full (b : Nat) (hb : 1 ≤ b) (rs : List Recipient) :
    ∀ i, i + 1 < (makeBatches b rs).length →
      ((makeBatches b rs).getD i []).length = b := by
  generalize hn : rs.length = n
  induction n using Nat.strong_induction_on generalizing rs with
  | _ n ih =>
    intro i hi
    by_cases h : rs = []
    · rw [h, makeBatches_nil] at hi; simp at hi
    · have hlen : (rs.drop b).length < n := by
        rw [← hn, List.length_drop]
        have : 1 ≤ rs.length := List.length_pos.mpr h
        omega
      rw [makeBatches_cons b hb rs h] at hi ⊢
      cases i with
      | zero =>
        have hne : rs.drop b ≠ [] := by
          intro he
          rw [he, makeBatches_nil] at hi
          simp at hi
        have hblt : b < rs.length := by
          have : 0 < (rs.drop b).length := List.length_pos.mpr hne
          rw [List.length_drop] at this
          omega
        simp [List.length_take]
        omega
      | succ j =>
        have hj : j + 1 < (makeBatches b (rs.drop b)).length := by
          simp only [List.length_cons] at hi
          omega
        simpa using ih _ hlen (rs.drop b) rfl j hj

/-- The final batch is non-empty and no larger than the batch size. -/
theorem makeBatches_last (b : Nat) (hb : 1 ≤ b) (rs : List Recipient) :
    ∀ l, (makeBatches b rs).getLast? = some l → 1 ≤ l.length ∧ l.length ≤ b := by
  generalize hn : rs.length = n
  induction n using Nat.strong_induction_on generalizing rs with
  | _ n ih =>
    intro l hl
    by_cases h : rs = []
    · rw [h, makeBatches_nil] at hl; simp at hl
    · have hpos : 1 ≤ rs.length := List.length_pos.mpr h
      have hlen : (rs.drop b).length < n := by
        rw [← hn, List.length_drop]; omega
      rw [makeBatches_cons b hb rs h] at hl
      by_cases hd : rs.drop b = []
      · rw [hd, makeBatches_nil] at hl
        have hlb : rs.take b = l := by simpa using hl
        subst hlb
        simp [List.length_take]
        omega
      · obtain ⟨m, ms, hm⟩ : ∃ m ms, makeBatches b (rs.drop b) = m :: ms := by
          rw [makeBatches_cons b hb _ hd]
          exact ⟨_, _, rfl⟩
        rw [hm, List.getLast?_cons_cons] at hl
        exact ih _ hlen (rs.drop b) rfl l (hm ▸ hl)

/-- The trace sleeps after every batch except the last. -/
theorem runTrace_structure (t : Recipient → Bool) :
    ∀ (batches : List (List Recipient)) (l : List Recipient),
      batches.getLast? = some l →
        runTrace t batches
          = (batches.dropLast.map
              (fun bt => bt.map (stepEv t) ++ [Ev.sleep])).flatten
            ++ l.map (stepEv t) := by
  intro batches
  induction batches with
  | nil => intro l hl; simp at hl
  | cons batch rest ih =>
    intro l hl
    cases rest with
    | nil =>
      have hlb : batch = l := by simpa using hl
      subst hlb
      simp [runTrace]
    | cons y ys =>
      rw [List.getLast?_cons_cons] at hl
      have hstep := ih l hl
      rw [runTrace, hstep]
      have hne : (y :: ys).isEmpty = false := rfl
      rw [hne]
      simp [List.dropLast_cons_of_ne_nil]

theorem sleepCount_sep (c : Bool) :
    sleepCount (if c then [] else [Ev.sleep]) = if c then 0 else 1 := by
  cases c <;> rfl

theorem sleepCount_map_stepEv (t : Recipient → Bool) (batch : List Recipient) :
    sleepCount (batch.map (stepEv t)) = 0 := by
  induction batch with
  | nil => rfl
  | cons r rest ih =>
    rw [List.map_cons]
    have : sleepCount (stepEv t r :: rest.map (stepEv t))
        = sleepCount (rest.map (stepEv t)) := by
      simp [sleepCount, List.filter_cons, isSleepEv_stepEv]
    rw [this, ih]

/-- One sleep per batch boundary. -/
theorem runTrace_sleepCount (t : Recipient → Bool) :
    ∀ batches : List (List Recipient),
      sleepCount (runTrace t batches) = batches.length - 1 := by
  intro batches
  induction batches with
  | nil => rfl
  | cons batch rest ih =>
    rw [runTrace, sleepCount_append, sleepCount_append, sleepCount_map_stepEv,
      sleepCount_sep, ih]
    cases rest with
    | nil => rfl
    | cons y ys =>
      simp only [List.isEmpty_cons, Bool.false_eq_true, if_false, List.length_cons]
      omega

theorem errNameOf_stepEv {t : Recipient → Bool} {x : Recipient} {nm : String} :
    errNameOf (stepEv t x) = some nm
      ↔ (¬ x.phone = "" ∧ t x = false ∧ nm = x.name.getD "") := by
  rcases stepEv_cases t x with ⟨hp, hstep⟩ | ⟨hp, ht, hstep⟩ | ⟨hp, ht, hstep⟩ <;>
    rw [hstep]
  · simp [errNameOf, hp]
  · simp [errNameOf, hp, ht]
  · simp [errNameOf, hp, ht, eq_comm]

theorem errLog_count_zero (t : Recipient → Bool) (nm : String) :
    ∀ xs : List Recipient, (∀ y ∈ xs, errNameOf (stepEv t y) ≠ some nm) →
      (errLog (xs.map (stepEv t))).count nm = 0 := by
  intro xs
  induction xs with
  | nil => intro _; rfl
  | cons x xs ih =>
    intro h
    cases henv : errNameOf (stepEv t x) with
    | none =>
      have hcons : errLog ((x :: xs).map (stepEv t)) = errLog (xs.map (stepEv t)) := by
        rw [List.map_cons]; simp [errLog, List.filterMap_cons, henv]
      rw [hcons]
      exact ih fun y hy => h y (List.mem_cons_of_mem _ hy)
    | some m =>
      have hm : ¬ (m = nm) := fun he =>
        h x (List.mem_cons_self x xs) (he ▸ henv)
      have hcons : errLog ((x :: xs).map (stepEv t))
          = m :: errLog (xs.map (stepEv t)) := by
        rw [List.map_cons]; simp [errLog, List.filterMap_cons, henv]
      rw [hcons, List.count_cons, ih fun y hy => h y (List.mem_cons_of_mem _ hy)]
      simp [hm]

/-- If exactly one recipient in the run carries the failing identifier, the
error log mentions that identifier exactly once. -/
theorem errLog_count_one (t : Recipient → Bool) (r : Recipient)
    (hphone : ¬ r.phone = "") (hfail : t r = false) :
    ∀ rs : List Recipient, r ∈ rs → rs.count r = 1 →
      (∀ x ∈ rs, x.name.getD "" = r.name.getD "" → x = r) →
      (errLog (rs.map (stepEv t))).count (r.name.getD "") = 1 := by
  intro rs
  induction rs with
  | nil => intro h; simp at h
  | cons x xs ih =>
    intro hmem hcount hname
    by_cases hx : x = r
    · subst hx
      have hstep : stepEv t x = .sendError x := by
        rw [stepEv, if_neg hphone, if_neg (by simp [hfail])]
      have henv : errNameOf (stepEv t x) = some (x.name.getD "") := by
        rw [hstep]; rfl
      have hcons : errLog ((x :: xs).map (stepEv t))
          = x.name.getD "" :: errLog (xs.map (stepEv t)) := by
        rw [List.map_cons]; simp [errLog, List.filterMap_cons, henv]
      have hnotin : x ∉ xs := by
        rw [List.count_cons] at hcount
        simp at hcount
        exact List.count_eq_zero.mp (by omega)
      have hzero : (errLog (xs.map (stepEv t))).count (x.name.getD "") = 0 := by
        apply errLog_count_zero
        intro y hy hcontra
        obtain ⟨-, -, hynm⟩ := errNameOf_stepEv.mp hcontra
        exact hnotin (hname y (List.mem_cons_of_mem _ hy) hynm.symm ▸ hy)
      rw [hcons, List.count_cons, hzero]
      simp
    · have hmem' : r ∈ xs := by
        rcases List.mem_cons.mp hmem with he | h
        · exact absurd he.symm hx
        · exact h
      have hcount' : xs.count r = 1 := by
        rw [List.count_cons] at hcount
        simpa [hx] using hcount
      have hname' : ∀ y ∈ xs, y.name.getD "" = r.name.getD "" → y = r :=
        fun y hy => hname y (List.mem_cons_of_mem _ hy)
      have ihres := ih hmem' hcount' hname'
      cases henv : errNameOf (stepEv t x) with
      | none =>
        have hcons : errLog ((x :: xs).map (stepEv t))
            = errLog (xs.map (stepEv t)) := by
          rw [List.map_cons]; simp [errLog, List.filterMap_cons, henv]
        rw [hcons]; exact ihres
      | some m =>
        have hm : ¬ (m = r.name.getD "") := by
          intro he
          obtain ⟨-, -, hmnm⟩ := errNameOf_stepEv.mp henv
          exact hx (hname x (List.mem_cons_self x xs) (by rw [← hmnm, he]))
        have hcons : errLog ((x :: xs).map (stepEv t))
            = m :: errLog (xs.map (stepEv t)) := by
          rw [List.map_cons]; simp [errLog, List.filterMap_cons, henv]
        rw [hcons, List.count_cons, ihres]
        simp [hm]

/-- C1: in every live run — the text-message loop and the batched broadcast
loop — each recipient contributes exactly one outcome
(`sentCount + errorCount = N`), every blank-phone recipient is counted as an
error (`errorCount ≥ M`), and the transport requests issued are exactly the
non-blank recipients, so blank phones trigger no request. -/
theorem c1_live_dispatch_counters (t : Recipient → Bool) (rs : List Recipient) :
    (sentCount (sendTextLoop t rs) + errorCount (sendTextLoop t rs) = rs.length
      ∧ (rs.filter fun r => decide (r.phone = "")).length
          ≤ errorCount (sendTextLoop t rs)
      ∧ requests (sendTextLoop t rs) = rs.filter fun r => !decide (r.phone = ""))
    ∧ (∀ b, 1 ≤ b →
        sentCount (broadcastTrace t b rs) + errorCount (broadcastTrace t b rs)
            = rs.length
        ∧ (rs.filter fun r => decide (r.phone = "")).length
            ≤ errorCount (broadcastTrace t b rs)
        ∧ requests (broadcastTrace t b rs)
            = rs.filter fun r => !decide (r.phone = "")) := by
  obtain ⟨h1, h2, h3⟩ := counts_map t rs
  refine ⟨?_, ?_⟩
  · rw [sendTextLoop_eq_map]
    exact ⟨h1, h2, h3⟩
  · intro b hb
    obtain ⟨g1, g2, g3, -⟩ := runTrace_counts t (makeBatches b rs)
    rw [makeBatches_flatten b hb rs] at g1 g2 g3
    rw [broadcastTrace, g1, g2, g3]
    exact ⟨h1, h2, h3⟩

/-- C1 witness: the broadcast clause at a concrete three-recipient selection
(one blank phone) with batch size 2. -/
theorem c1_live_dispatch_witness :
    sentCount (broadcastTrace (fun r => decide (r.phone = "1")) 2
        [⟨some "A", "1", none, none, none⟩, ⟨some "B", "", none, none, none⟩,
          ⟨some "C", "3", none, none, none⟩])
      + errorCount (broadcastTrace (fun r => decide (r.phone = "1")) 2
        [⟨some "A", "1", none, none, none⟩, ⟨some "B", "", none, none, none⟩,
          ⟨some "C", "3", none, none, none⟩])
      = ([⟨some "A", "1", none, none, none⟩, ⟨some "B", "", none, none, none⟩,
          ⟨some "C", "3", none, none, none⟩] : List Recipient).length :=
  ((c1_live_dispatch_counters (fun r => decide (r.phone = "1"))
    [⟨some "A", "1", none, none, none⟩, ⟨some "B", "", none, none, none⟩,
      ⟨some "C", "3", none, none, none⟩]).2 2 (by decide)).1

/-- C2: for every selection and every `batch_size = b ≥ 1` the engine forms
`⌈N/b⌉` contiguous batches that partition the selection in original order
with no gaps or overlaps, every batch except the last is full, the last is
non-empty and at most `b` long (sizes 10, 10, 3 for N = 23, b = 10), and the
inter-batch delay is taken after every batch except the last. -/
theorem c2_batching (b : Nat) (hb : 1 ≤ b) (rs : List Recipient) :
    (makeBatches b rs).flatten = rs
    ∧ (makeBatches b rs).length = (rs.length + b - 1) / b
    ∧ (∀ i, i + 1 < (makeBatches b rs).length →
        ((makeBatches b rs).getD i []).length = b)
    ∧ (∀ l, (makeBatches b rs).getLast? = some l → 1 ≤ l.length ∧ l.length ≤ b)
    ∧ (rs.length = 23 → b = 10 → (makeBatches b rs).map List.length = [10, 10, 3])
    ∧ (∀ t : Recipient → Bool,
        sleepCount (runTrace t (makeBatches b rs)) = (makeBatches b rs).length - 1
        ∧ ∀ l, (makeBatches b rs).getLast? = some l →
            runTrace t (makeBatches b rs)
              = ((makeBatches b rs).dropLast.map
                  (fun bt => bt.map (stepEv t) ++ [Ev.sleep])).flatten
                ++ l.map (stepEv t)) := by
  refine ⟨makeBatches_flatten b hb rs, makeBatches_length b rs,
    makeBatches_full b hb rs, makeBatches_last b hb rs, ?_, fun t =>
    ⟨runTrace_sleepCount t _, fun l hl => runTrace_structure t _ l hl⟩⟩
  intro h23 hb10
  subst hb10
  have hne1 : rs ≠ [] := by intro he; rw [he] at h23; simp at h23
  have e1 := makeBatches_cons 10 (by omega) rs hne1
  have hlen1 : (rs.drop 10).length = 13 := by rw [List.length_drop, h23]
  have hne2 : rs.drop 10 ≠ [] := by intro he; rw [he] at hlen1; simp at hlen1
  have e2 := makeBatches_cons 10 (by omega) (rs.drop 10) hne2
  have hlen2 : ((rs.drop 10).drop 10).length = 3 := by
    rw [List.length_drop, hlen1]
  have hne3 : (rs.drop 10).drop 10 ≠ [] := by
    intro he; rw [he] at hlen2; simp at hlen2
  have e3 := makeBatches_cons 10 (by omega) ((rs.drop 10).drop 10) hne3
  have hlen3 : (((rs.drop 10).drop 10).drop 10).length = 0 := by
    rw [List.length_drop, hlen2]
  have hnil : ((rs.drop 10).drop 10).drop 10 = [] :=
    List.length_eq_zero.mp hlen3
  rw [e1, e2, e3, hnil, makeBatches_nil]
  simp only [List.map_cons, List.map_nil, List.length_take, hlen1, hlen2, h23]
  norm_num

/-- C2 witness: the partition and the 10/10/3 batch sizes at a concrete
23-recipient selection with batch size 10. -/
theorem c2_batching_witness :
    (makeBatches 10 (List.replicate 23
        (⟨none, "5", none, none, none⟩ : Recipient))).flatten
      = List.replicate 23 (⟨none, "5", none, none, none⟩ : Recipient)
    ∧ (makeBatches 10 (List.replicate 23
        (⟨none, "5", none, none, none⟩ : Recipient))).map List.length
      = [10, 10, 3] :=
  ⟨(c2_batching 10 (by decide) _).1,
    (c2_batching 10 (by decide) _).2.2.2.2.1 (by simp) rfl⟩

/-- C3: a provider failure for one recipient does not abort the run: every
non-blank recipient still has its request issued, the completion summary
covers all `N` recipients, and the error log contains exactly one entry
carrying the failing recipient's identifier — in the text loop and in the
batched broadcast alike. -/
theorem c3_provider_failure_isolated (t : Recipient → Bool)
    (rs : List Recipient) (r : Recipient) (hmem : r ∈ rs)
    (hphone : ¬ r.phone = "") (hfail : t r = false) (hcount : rs.count r = 1)
    (hname : ∀ x ∈ rs, x.name.getD "" = r.name.getD "" → x = r) :
    (errLog (sendTextLoop t rs)).count (r.name.getD "") = 1
    ∧ (∀ x ∈ rs, ¬ x.phone = "" → x ∈ requests (sendTextLoop t rs))
    ∧ sentCount (sendTextLoop t rs) + errorCount (sendTextLoop t rs) = rs.length
    ∧ ∀ b, 1 ≤ b →
        (errLog (broadcastTrace t b rs)).count (r.name.getD "") = 1 := by
  obtain ⟨h1, h2, h3⟩ := counts_map t rs
  have hlog := errLog_count_one t r hphone hfail rs hmem hcount hname
  refine ⟨?_, ?_, ?_, ?_⟩
  · rw [sendTextLoop_eq_map]; exact hlog
  · intro x hx hxp
    rw [sendTextLoop_eq_map, h3]
    exact List.mem_filter.mpr ⟨hx, by simp [hxp]⟩
  · rw [sendTextLoop_eq_map]; exact h1
  · intro b hb
    obtain ⟨-, -, -, g4⟩ := runTrace_counts t (makeBatches b rs)
    rw [makeBatches_flatten b hb rs] at g4
    rw [broadcastTrace, g4]
    exact hlog

/-- C3 witness: a three-recipient run whose transport fails exactly for the
middle recipient. -/
theorem c3_provider_failure_witness :
    (errLog (sendTextLoop (fun x => !decide (x.phone = "2"))
        [⟨some "A", "1", none, none, none⟩, ⟨some "B", "2", none, none, none⟩,
          ⟨some "C", "3", none, none, none⟩])).count
      ((⟨some "B", "2", none, none, none⟩ : Recipient).name.getD "") = 1 :=
  (c3_provider_failure_isolated (fun x => !decide (x.phone = "2"))
    [⟨some "A", "1", none, none, none⟩, ⟨some "B", "2", none, none, none⟩,
      ⟨some "C", "3", none, none, none⟩]
    ⟨some "B", "2", none, none, none⟩
    (by decide) (by decide) (by decide) (by decide) (by decide)).1

/-! ### Concurrent broadcast (`send_broadcast`, app.py:130-195) -/

/-- What one worker's `requests.post` produces for a given wire phone: an
HTTP response with a status code and body text, or a raised exception
(network failure). -/
inductive BOutcome
  | resp (status : Nat) (text : String)
  | exn (msg : String)

/-- One entry of the list `send_broadcast` returns. -/
structure BResult where
  phone : String
  success : Bool
  payload : String
deriving DecidableEq

/-- `send_single_message` (app.py:152-172) plus the `except` arm of the
collection loop (app.py:188-193): a non-200 status yields an error record,
a 200 yields a success record, and a raised exception is caught and yields
an error record tagged with the phone from `future_to_phone`.  In every
case the record is tagged with the formatted wire phone. -/
def sendSingleMessage (outcome : String → BOutcome)
    (formatted_phone : String) : BResult :=
  match outcome formatted_phone with
  | .resp status text =>
    if status ≠ 200 then
      ⟨formatted_phone, false, "API Error " ++ toString status ++ ": " ++ text⟩
    else
      ⟨formatted_phone, true, text⟩
  | .exn msg => ⟨formatted_phone, false, msg⟩

/-- `_format_phone` lifted to `String`. -/
def formatPhoneStr (s : String) : String := String.mk (formatPhone s.data)

/-- `send_broadcast` (app.py:130-195): all numbers are formatted, one task
is submitted per formatted number, and results are appended in completion
order — modelled by an `order` list, a permutation of the task indexes,
chosen by the scheduler (`concurrent.futures.as_completed`). -/
def send_broadcast (outcome : String → BOutcome) (order : List Nat)
    (to_numbers : List String) : List BResult :=
  let formatted := to_numbers.map formatPhoneStr
  order.filterMap (fun i => (formatted[i]?).map (sendSingleMessage outcome))

theorem sendSingleMessage_phone (outcome : String → BOutcome) (p : String) :
    (sendSingleMessage outcome p).phone = p := by
  rw [sendSingleMessage]
  split
  · split <;> rfl
  · rfl

theorem map_getD_range {α β : Type} (f : α → β) (d : α) :
    ∀ l : List α,
      (List.range l.length).map (fun i => f (l.getD i d)) = l.map f := by
  intro l
  induction l with
  | nil => rfl
  | cons a l ih =>
    rw [List.length_cons, List.range_succ_eq_map, List.map_cons, List.map_map,
      List.map_cons, List.getD_cons_zero]
    refine congrArg (f a :: ·) ?_
    rw [← ih]
    apply List.map_congr_left
    intro i _
    simp [List.getD_cons_succ]

theorem filterMap_getElem_eq_map {α β : Type} (l : List α) (d : α) (h : α → β) :
    ∀ ord : List Nat, (∀ i ∈ ord, i < l.length) →
      ord.filterMap (fun i => (l[i]?).map h)
        = ord.map (fun i => h (l.getD i d)) := by
  intro ord
  induction ord with
  | nil => intro _; rfl
  | cons i ord ih =>
    intro hlt
    have hi : i < l.length := hlt i (List.mem_cons_self i ord)
    have hsome : (l[i]?).map h = some (h (l.getD i d)) := by
      rw [List.getElem?_eq_getElem hi, Option.map_some', List.getD_eq_getElem l d hi]
    rw [List.filterMap_cons, hsome, List.map_cons,
      ih fun j hj => hlt j (List.mem_cons_of_mem _ hj)]

/-- C9 counterexample: for the submitted number `"+1"` the returned record
is tagged with the wire-format phone `"1"`, not with the originating number
`"+1"` itself. -/
theorem c9_counterexample :
    send_broadcast (fun _ => .resp 200 "ok") [0] ["+1"]
      = [⟨"1", true, "ok"⟩]
    ∧ ∀ res ∈ send_broadcast (fun _ => .resp 200 "ok") [0] ["+1"],
        ¬ (res.phone = "+1") := by
  constructor
  · rfl
  · decide

/-- C9 (amended): whatever completion order the pool produces, the returned
collection is a permutation of one record per submitted number — success or
error as that task's outcome dictates — each tagged with the wire-format
(normalized) originating phone; in particular there is exactly one result
per submitted number and a failing task never removes another's result. -/
theorem c9_send_broadcast_results (outcome : String → BOutcome)
    (to_numbers : List String) (order : List Nat)
    (hperm : order.Perm (List.range to_numbers.length)) :
    (send_broadcast outcome order to_numbers).Perm
      (to_numbers.map (fun p => sendSingleMessage outcome (formatPhoneStr p)))
    ∧ (send_broadcast outcome order to_numbers).length = to_numbers.length
    ∧ ∀ p ∈ to_numbers,
        sendSingleMessage outcome (formatPhoneStr p)
            ∈ send_broadcast outcome order to_numbers
        ∧ (sendSingleMessage outcome (formatPhoneStr p)).phone
            = formatPhoneStr p := by
  have hlt : ∀ i ∈ order, i < (to_numbers.map formatPhoneStr).length := by
    intro i hi
    rw [List.length_map]
    exact List.mem_range.mp (hperm.mem_iff.mp hi)
  have h1 : send_broadcast outcome order to_numbers
      = order.map (fun i =>
          sendSingleMessage outcome ((to_numbers.map formatPhoneStr).getD i "")) :=
    filterMap_getElem_eq_map (to_numbers.map formatPhoneStr) ""
      (sendSingleMessage outcome) order hlt
  have h2 : (List.range to_numbers.length).map (fun i =>
        sendSingleMessage outcome ((to_numbers.map formatPhoneStr).getD i ""))
      = to_numbers.map (fun p => sendSingleMessage outcome (formatPhoneStr p)) := by
    have := map_getD_range (sendSingleMessage outcome) ""
      (to_numbers.map formatPhoneStr)
    rw [List.length_map] at this
    rw [this, List.map_map]
    rfl
  have hperm' : (send_broadcast outcome order to_numbers).Perm
      (to_numbers.map (fun p => sendSingleMessage outcome (formatPhoneStr p))) := by
    rw [h1, ← h2]
    exact hperm.map _
  refine ⟨hperm', ?_, ?_⟩
  · rw [hperm'.length_eq, List.length_map]
  · intro p hp
    refine ⟨?_, sendSingleMessage_phone outcome (formatPhoneStr p)⟩
    rw [hperm'.mem_iff]
    exact List.mem_map.mpr ⟨p, hp, rfl⟩

/-- C9 witness: a two-number broadcast collected in reversed completion
order, one task failing. -/
theorem c9_send_broadcast_witness :
    (send_broadcast
        (fun ph => if ph = "22" then .exn "timeout" else .resp 200 "ok")
        [1, 0] ["+1", "2 2"]).length
      = (["+1", "2 2"] : List String).length :=
  (c9_send_broadcast_results
    (fun ph => if ph = "22" then .exn "timeout" else .resp 200 "ok")
    ["+1", "2 2"] [1, 0] (by decide)).2.1

/-! ### Dataframe phone cleaning (`clean_phone_numbers`, app.py:197-219) -/

/-- A dataframe: labelled columns and rows of string cells (cells reach the
cleaner through `str(phone)`, so strings model them faithfully).  Rows are
aligned with the column list. -/
structure DataFrame where
  columns : List String
  rows : List (List String)
deriving DecidableEq

/-- The inner `format_phone` of `clean_phone_numbers` (app.py:203-214):
keep digits and `'+'`, then prepend `'+'` when the kept characters do not
already start with one.  Unlike `_format_phone` it keeps the leading `'+'`. -/
def cleanCell (s : String) : String := String.mk (cleanPhoneValue s.data)

/-- `clean_phone_numbers` (app.py:197-219): when a `phone` column exists,
`df['phone'] = df['phone'].apply(format_phone)` rewrites exactly that
column; otherwise the dataframe is returned untouched. -/
def clean_phone_numbers (df : DataFrame) : DataFrame :=
  if "phone" ∈ df.columns then
    let i := df.columns.indexOf "phone"
    { df with rows := df.rows.map (fun row => row.set i (cleanCell (row.getD i ""))) }
  else df

theorem getD_map_set (f : List String → List String) (hf : f [] = [])
    (rows : List (List String)) (k : Nat) :
    (rows.map f).getD k [] = f (rows.getD k []) := by
  rw [List.getD_eq_getElem?_getD, List.getD_eq_getElem?_getD, List.getElem?_map]
  cases rows[k]? with
  | none => simpa using hf.symm
  | some row => rfl

/-- C10: `clean_phone_numbers` touches only the `phone` column — a table
without one is returned unchanged; the column list, the row count and the
row order are preserved; every cell outside the `phone` column keeps its
value; and the `phone` cell of each row is rewritten to the row's kept
digit-and-`'+'` characters, with `'+'` prepended when they do not already
begin with one. -/
theorem c10_clean_phone_frame (df : DataFrame)
    (hw : ∀ row ∈ df.rows, row.length = df.columns.length) :
    ("phone" ∉ df.columns → clean_phone_numbers df = df)
    ∧ (clean_phone_numbers df).columns = df.columns
    ∧ (clean_phone_numbers df).rows.length = df.rows.length
    ∧ (∀ k j, ¬ (j = df.columns.indexOf "phone") →
        ((clean_phone_numbers df).rows.getD k []).getD j ""
          = (df.rows.getD k []).getD j "")
    ∧ ("phone" ∈ df.columns → ∀ k, k < df.rows.length →
        ((clean_phone_numbers df).rows.getD k []).getD
            (df.columns.indexOf "phone") ""
          = cleanCell ((df.rows.getD k []).getD (df.columns.indexOf "phone") ""))
    ∧ (∀ s : String, (cleanCell s).data
        = if (filterPhone s.data).head? = some '+' then filterPhone s.data
          else '+' :: filterPhone s.data) := by
  set i := df.columns.indexOf "phone" with hi
  have hf0 : (fun row => List.set row i (cleanCell (row.getD i ""))) [] = [] := rfl
  refine ⟨?_, ?_, ?_, ?_, ?_, fun s => rfl⟩
  · intro hno
    rw [clean_phone_numbers, if_neg hno]
  · rw [clean_phone_numbers]
    split <;> rfl
  · rw [clean_phone_numbers]
    split
    · exact List.length_map ..
    · rfl
  · intro k j hj
    by_cases hmem : "phone" ∈ df.columns
    · rw [clean_phone_numbers, if_pos hmem]
      simp only []
      rw [getD_map_set _ hf0 df.rows k, List.getD_eq_getElem?_getD,
        List.getD_eq_getElem?_getD, List.getElem?_set_ne (fun he => hj he.symm),
        List.getD_eq_getElem?_getD]
    · rw [clean_phone_numbers, if_neg hmem]
  · intro hmem k hk
    rw [clean_phone_numbers, if_pos hmem]
    simp only []
    rw [getD_map_set _ hf0 df.rows k]
    have hrow : df.rows.getD k [] ∈ df.rows := by
      rw [List.getD_eq_getElem df.rows [] hk]
      exact List.getElem_mem hk
    have hilt : i < (df.rows.getD k []).length := by
      rw [hw _ hrow]
      exact List.indexOf_lt_length.mpr hmem
    have hset : i < ((df.rows.getD k []).set i
        (cleanCell ((df.rows.getD k []).getD i ""))).length := by
      simpa using hilt
    rw [List.getD_eq_getElem _ "" hset, List.getElem_set_self]

/-- C10 witness: a two-column table with two rows, phones `"+1 2"` and
`"30"`. -/
theorem c10_clean_phone_witness :
    clean_phone_numbers ⟨["name", "phone"], [["Ann", "+1 2"], ["Bo", "30"]]⟩
      = ⟨["name", "phone"],
          [["Ann", cleanCell "+1 2"], ["Bo", cleanCell "30"]]⟩
    ∧ ((clean_phone_numbers
          ⟨["name", "phone"], [["Ann", "+1 2"], ["Bo", "30"]]⟩).rows.getD 0 []).getD
        ((["name", "phone"] : List String).indexOf "phone") ""
      = cleanCell (((([["Ann", "+1 2"], ["Bo", "30"]] : List (List String))).getD 0 []).getD
          ((["name", "phone"] : List String).indexOf "phone") "") :=
  ⟨by decide,
    (c10_clean_phone_frame ⟨["name", "phone"], [["Ann", "+1 2"], ["Bo", "30"]]⟩
      (by decide)).2.2.2.2.1 (by decide) 0 (by decide)⟩

end WhatsAppApp
